import Mathlib

set_option maxRecDepth 1000000

/-!
Shallow embedding of the Vengine (mini-milvus) vector search engine core:
`src/core/dataset.hpp` (`VectorDataset`), `src/core/utils/wal.hpp` (`WAL`),
`src/core/metrics.hpp` (`l2_distance`), `src/core/kmeans.hpp` (`KMeans`),
and `src/core/ivf_index.hpp` (`IVFIndex`).

Modelling conventions:
* C++ `float` scalars are modelled as `ℚ`.  Every concrete value appearing in
  the closed theorems below (inputs, centroid means, squared distances,
  thresholds) is a small integer, a half or a quarter, hence exactly
  representable and exactly computed by IEEE single-precision arithmetic, so
  all comparisons made by the code coincide with the rational ones.  The AVX2
  path of `l2_distance` is never entered for the dimensions used here
  (`dim < 8`), and it computes the same exact sums anyway for exact inputs.
* C++ exceptions are modelled with `Except`; the arm in which an exception is
  thrown performs no state mutation in the source, so the pre-state is simply
  retained by the caller.
* Undefined behaviour that the source can actually reach
  (`top_candidates.top()` on an empty `std::priority_queue`,
  `clusters_scores[0]` on an empty vector) is modelled by `Option`/`none`.
* `std::mt19937` is specified exactly by the C++ standard
  (`mersenne_twister_engine` with the mt19937 parameters); it is embedded
  below, restricted to the first block of 624 outputs (every run modelled in
  this file draws fewer than ten values).  `std::uniform_int_distribution`
  follows the libstdc++ implementation (`bits/uniform_int_dist.h`): for a
  32-bit source and a small range it divides the raw draw by
  `(2^32 - 1) / range` and rejects draws at or beyond `range * scaling`.
* `std::priority_queue` and the final `std::sort` follow the libstdc++
  algorithms (`__push_heap`, `__pop_heap`/`__adjust_heap`, and insertion sort,
  which `std::sort` uses for the short ranges arising in the concrete runs
  below and which is stable).
-/

namespace Vengine

/-- `SearchResult` from `ivf_index.hpp`: vector id (`idx_t`) and distance to
the query.  Ids produced by the engine are dataset indices, hence `ℕ`. -/
structure SearchResult where
  id : ℕ
  distance : ℚ
deriving DecidableEq, Repr

/-- `l2_distance` from `metrics.hpp`: the squared L2 distance
`Σ (aᵢ - bᵢ)²`.  The source checks `a.size() != b.size()` and throws; every
call site in the engine passes equal-length spans, and all theorems below
apply it at equal lengths only. -/
def l2_distance (a b : List ℚ) : ℚ :=
  (List.zipWith (fun x y => (x - y) * (x - y)) a b).sum

/-- Error kinds of the core (`std::invalid_argument` for a dimension
mismatch in `VectorDataset::add`, `std::runtime_error` for
`KMeans::train` on `count < k`). -/
inductive CoreErr where
  | dimensionMismatch
  | insufficientData
deriving DecidableEq, Repr

/-- `VectorDataset` from `dataset.hpp`: flat storage `data_`, dimension
`dim_`, vector count `cnt_`. -/
structure VectorDataset where
  dim : ℕ
  data : List ℚ
  cnt : ℕ
deriving DecidableEq, Repr

/-- `VectorDataset::add`: throws `invalid_argument("Dimension Mismatch")`
when `vec.size() != dim_` (before touching any state), otherwise appends the
vector to the flat storage and increments `cnt_`.  The C++ member returns
`void`; the id under which the new vector becomes addressable is the
pre-call `cnt_`. -/
def VectorDataset.add (d : VectorDataset) (vec : List ℚ) :
    Except CoreErr VectorDataset :=
  if vec.length ≠ d.dim then .error .dimensionMismatch
  else .ok ⟨d.dim, d.data ++ vec, d.cnt + 1⟩

/-- `VectorDataset::get_vector`: the span `[data_ + i * dim_, dim_)`. -/
def VectorDataset.get_vector (d : VectorDataset) (i : ℕ) : List ℚ :=
  (d.data.drop (i * d.dim)).take d.dim

/-- A dataset is well-formed when the flat storage holds exactly `cnt`
vectors of width `dim` (invariant maintained by `add`). -/
def VectorDataset.wf (d : VectorDataset) : Prop :=
  d.data.length = d.cnt * d.dim

instance (d : VectorDataset) : Decidable d.wf := by
  unfold VectorDataset.wf; infer_instance

/-! ### Write-ahead log (`wal.hpp`)

The log file is modelled as its character content.  `WAL::append` writes
`operation|data\n`.  `WAL::recover` reads the file line by line
(`std::getline`), skips empty lines, skips lines without a `'|'`, splits the
rest at the first `'|'` and replays `(op, data)`; the model returns the list
of replayed pairs in replay order. -/

/-- One `WAL::append`: the file grows by the line `op|payload\n`. -/
def walAppend (file op payload : List Char) : List Char :=
  file ++ op ++ ['|'] ++ payload ++ ['\n']

/-- A sequence of `WAL::append` calls in order. -/
def walAppendAll (file : List Char) (recs : List (List Char × List Char)) :
    List Char :=
  recs.foldl (fun acc r => walAppend acc r.1 r.2) file

/-- Split the file into `std::getline` lines (accumulator holds the current
line reversed).  `getline` never yields a segment after a final newline with
nothing before EOF; the extra empty tail segment produced here is discarded
by recovery's empty-line skip, so replay output is identical. -/
def splitLinesGo : List Char → List Char → List (List Char)
  | [], cur => [cur.reverse]
  | c :: cs, cur =>
      if c = '\n' then cur.reverse :: splitLinesGo cs []
      else splitLinesGo cs (c :: cur)

def splitLines (file : List Char) : List (List Char) :=
  splitLinesGo file []

/-- `line.find('|')` followed by the two `substr` calls: split at the first
bar, `none` when the line has no bar. -/
def findBar : List Char → Option (List Char × List Char)
  | [] => none
  | c :: cs =>
      if c = '|' then some ([], cs)
      else (findBar cs).map (fun p => (c :: p.1, p.2))

/-- One recovery step: skip empty lines (`line.empty()`), skip lines without
a bar (`pos == npos`), otherwise produce the `(op, data)` pair handed to
`replay_operation`. -/
def parseLine (l : List Char) : Option (List Char × List Char) :=
  match l with
  | [] => none
  | _ => findBar l

/-- `WAL::recover`: the sequence of `(op, data)` pairs replayed, in file
order. -/
def walRecover (file : List Char) : List (List Char × List Char) :=
  (splitLines file).filterMap parseLine

/-! ### `std::mt19937` (C++ standard `mersenne_twister_engine`)

`KMeans::init_centroids` owns `static std::mt19937 rng(42)`: one engine per
process, seeded once with 42, whose state advances across successive `train`
calls.  The engine state is modelled by the index of the next raw output;
`mtRaw n` is the `n`-th output of the seed-42 engine.  Only the first
generation block (624 outputs) is modelled — every run in this file draws
fewer than ten values. -/

/-- Seed sequence of `mersenne_twister_engine::seed(42)`:
`x₀ = 42`, `xᵢ = (1812433253 * (xᵢ₋₁ xor (xᵢ₋₁ >> 30)) + i) mod 2³²`.
The list is built head-first: `mtSeedRev n = [xₙ, …, x₀]`. -/
def mtSeedRev : ℕ → List ℕ
  | 0 => [42]
  | n + 1 =>
      match mtSeedRev n with
      | [] => []
      | x :: rest =>
          ((1812433253 * (x ^^^ (x >>> 30)) + (n + 1)) % 4294967296) :: x :: rest

/-- `xᵢ` of the seeded (pre-twist) state, for `i < 624`. -/
def seedX (i : ℕ) : ℕ := (mtSeedRev 623).reverse.getD i 0

/-- One twist value: from `x_j`, `x_{j+1}` and the entry 397 ahead
(`mersenne_twister_engine` transition with the mt19937 constants). -/
def mtNext (xj xj1 xk : ℕ) : ℕ :=
  let y := (xj &&& 2147483648) ||| (xj1 &&& 2147483647)
  (xk ^^^ (y >>> 1)) ^^^ ((y &&& 1) * 2567483615)

/-- Twisted state entries for `j < 227` (both neighbours and the 397-ahead
entry are still pre-twist values). -/
def tw1 (j : ℕ) : ℕ := mtNext (seedX j) (seedX (j + 1)) (seedX (j + 397))

/-- Twisted state entries for `227 ≤ j < 454`: index `(j+397) mod 624 =
j - 227` already holds a twisted value. -/
def tw2 (j : ℕ) : ℕ := mtNext (seedX j) (seedX (j + 1)) (tw1 (j - 227))

/-- Twisted state entries for `454 ≤ j < 623`. -/
def tw3 (j : ℕ) : ℕ := mtNext (seedX j) (seedX (j + 1)) (tw2 (j - 227))

/-- The full twisted state entry for `j < 624` (entry 623 reads the already
twisted entries 0 and 396). -/
def twisted (j : ℕ) : ℕ :=
  if j < 227 then tw1 j
  else if j < 454 then tw2 j
  else if j < 623 then tw3 j
  else mtNext (seedX 623) (tw1 0) (tw2 396)

/-- mt19937 tempering. -/
def temper (y0 : ℕ) : ℕ :=
  let y1 := y0 ^^^ (y0 >>> 11)
  let y2 := y1 ^^^ ((y1 <<< 7) &&& 2636928640)
  let y3 := y2 ^^^ ((y2 <<< 15) &&& 4022730752)
  y3 ^^^ (y3 >>> 18)

/-- The `n`-th raw output of `std::mt19937 rng(42)` (first block only; runs
in this file never draw past it). -/
def mtRaw (n : ℕ) : ℕ := if n < 624 then temper (twisted n) else 0

/-- libstdc++ `uniform_int_distribution` over `[0, cnt-1]` driven by a
32-bit engine: `scaling = (2³² - 1) / cnt`, draws `≥ cnt * scaling` are
rejected, the accepted raw value is divided by `scaling`.  `pos` is the
engine state (index of the next raw output); the fuel bounds the rejection
loop and is never exhausted on the runs modelled here. -/
def drawGo : ℕ → ℕ → ℕ → ℕ × ℕ
  | 0, _, pos => (0, pos)
  | fuel + 1, cnt, pos =>
      let scaling := 4294967295 / cnt
      let r := mtRaw pos
      if r < cnt * scaling then (r / scaling, pos + 1)
      else drawGo fuel cnt (pos + 1)

/-- One `dist(rng)` call of `init_centroids` (`dist` ranges over
`[0, count-1]`): returns the sampled index and the advanced engine state. -/
def drawIdx (cnt pos : ℕ) : ℕ × ℕ := drawGo 100 cnt pos

/-! ### `KMeans` (`kmeans.hpp` / `kmeans/kmeans.cpp`)

Both copies of `KMeans::train` in the repository are line-for-line
identical; the embedding below covers both. -/

/-- The row `centroids_.data() + c * dim_` of the flattened centroid
storage. -/
def centroidAt (cents : List ℚ) (dim c : ℕ) : List ℚ :=
  (cents.drop (c * dim)).take dim

/-- The argmin loop of the assignment step (and of `IVFIndex::build`):
`best_cluster = 0`, `min_dist = +∞`, scan `c = 0 … k-1`, keep the first
strict improvement (`dist < min_dist`), so the lowest index wins ties.  The
accumulator's `none` models the initial `+∞`, which every finite first
distance beats. -/
def argminGo (vec cents : List ℚ) (dim : ℕ) :
    List ℕ → ℕ × Option ℚ → ℕ × Option ℚ
  | [], acc => acc
  | c :: cs, (best, m) =>
      let d := l2_distance vec (centroidAt cents dim c)
      match m with
      | none => argminGo vec cents dim cs (c, some d)
      | some mv =>
          if d < mv then argminGo vec cents dim cs (c, some d)
          else argminGo vec cents dim cs (best, m)

/-- `best_cluster` for one vector. -/
def argminIdx (vec cents : List ℚ) (k dim : ℕ) : ℕ :=
  (argminGo vec cents dim (List.range k) (0, none)).1

/-- The parallel assignment step: `assign[i] = argmin` for every vector.
The OpenMP loop carries no loop dependence, so the sequential list is its
exact result. -/
def assignAll (ds : VectorDataset) (cents : List ℚ) (k : ℕ) : List ℕ :=
  (List.range ds.cnt).map (fun i => argminIdx (ds.get_vector i) cents k ds.dim)

/-- The ids assigned to cluster `c` (in id order, the order in which the
update loop accumulates them). -/
def clusterMembers (ds : VectorDataset) (asg : List ℕ) (c : ℕ) : List ℕ :=
  (List.range ds.cnt).filter (fun i => asg.getD i 0 = c)

/-- Componentwise vector sum accumulated on the zero-initialised row of
`new_centroids`. -/
def vecSum (dim : ℕ) (vs : List (List ℚ)) : List ℚ :=
  vs.foldl (fun acc v => List.zipWith (· + ·) acc v) (List.replicate dim 0)

/-- The update step: `new_centroids` starts as zeros; each cluster row
accumulates its members and is scaled by `1 / counts[c]` only when
`counts[c] > 0` — a cluster with no member keeps the zero row. -/
def updateStep (ds : VectorDataset) (asg : List ℕ) (k dim : ℕ) : List ℚ :=
  ((List.range k).map (fun c =>
    let ms := clusterMembers ds asg c
    if ms.length = 0 then List.replicate dim 0
    else (vecSum dim (ms.map ds.get_vector)).map (· * (1 / (ms.length : ℚ))))).flatten

/-- Number of entries on which the fresh assignment differs from the stored
one (`changed_count`). -/
def changedCount (old new : List ℕ) : ℕ :=
  (List.zipWith (fun a b => if a = b then 0 else 1) old new).sum

/-- The `for (iter …)` loop of `train`: recompute assignments, stop before
the update when nothing changed and `iter > 0`, otherwise update the
centroids and continue. -/
def trainGo (ds : VectorDataset) (k dim : ℕ) :
    ℕ → ℕ → List ℚ → List ℕ → List ℚ
  | 0, _, cents, _ => cents
  | rem + 1, iter, cents, asg =>
      let asg2 := assignAll ds cents k
      if changedCount asg asg2 = 0 ∧ 0 < iter then cents
      else trainGo ds k dim rem (iter + 1) (updateStep ds asg2 k dim) asg2

/-- Write vector `v` into centroid row `i` (`std::copy` onto
`centroids_.begin() + i * dim_`). -/
def setCentroid (cents : List ℚ) (dim i : ℕ) (v : List ℚ) : List ℚ :=
  cents.take (i * dim) ++ v ++ cents.drop (i * dim + dim)

/-- `init_centroids`: sample `k` indices from the shared engine (state
`pos`), copying each sampled vector into the next centroid row.  Returns the
new centroid storage and the advanced engine state. -/
def initCentroids (ds : VectorDataset) (dim : ℕ) (cents : List ℚ) :
    List ℕ → ℕ → List ℚ × ℕ
  | [], pos => (cents, pos)
  | i :: is, pos =>
      initCentroids ds dim
        (setCentroid cents dim i (ds.get_vector (drawIdx ds.cnt pos).1)) is
        (drawIdx ds.cnt pos).2

/-- The indices sampled by `init_centroids` (the engine draws it consumes),
exposed for the determinism theorem. -/
def initDraws (cnt : ℕ) : List ℕ → ℕ → List ℕ × ℕ
  | [], pos => ([], pos)
  | _ :: is, pos =>
      ((drawIdx cnt pos).1 :: (initDraws cnt is (drawIdx cnt pos).2).1,
        (initDraws cnt is (drawIdx cnt pos).2).2)

/-- `KMeans::train` on an engine in state `pos`: throws
`runtime_error("Datasize is smaller than k")` when `count < k`, otherwise
initialises the centroids from the shared engine and runs at most
`max_iter` Lloyd iterations (`assign` starts as all-zero).  Returns the
final flattened centroids and the advanced engine state. -/
def KMeans.train (ds : VectorDataset) (k maxIter dim pos : ℕ) :
    Except CoreErr (List ℚ × ℕ) :=
  if ds.cnt < k then .error .insufficientData
  else
    .ok (trainGo ds k dim maxIter 0
      (initCentroids ds dim (List.replicate (k * dim) 0) (List.range k) pos).1
      (List.replicate ds.cnt 0),
      (initCentroids ds dim (List.replicate (k * dim) 0) (List.range k) pos).2)

/-! ### `IVFIndex` (`ivf_index.hpp`) -/

/-- `IVFIndex` state: dimension, bucket count, the owned `KMeans`'s
flattened centroids, and the inverted lists. -/
structure IVFIndex where
  dim : ℕ
  n_lists : ℕ
  centroids : List ℚ
  inverted_lists : List (List ℕ)
deriving DecidableEq, Repr

/-- The constructor `IVFIndex(dim, n_lists)`: the `KMeans` member resizes
its centroid storage to `n_lists * dim` zeros, and `inverted_lists_` is
resized to `n_lists` empty buckets. -/
def IVFIndex.fresh (dim n_lists : ℕ) : IVFIndex :=
  ⟨dim, n_lists, List.replicate (n_lists * dim) 0, List.replicate n_lists []⟩

/-- `inverted_lists_[assignments[i]].push_back(i)`. -/
def bucketPush (ls : List (List ℕ)) (b i : ℕ) : List (List ℕ) :=
  match ls, b with
  | [], _ => []
  | l :: rest, 0 => (l ++ [i]) :: rest
  | l :: rest, b + 1 => l :: bucketPush rest b i

/-- The serial fill loop of `build`: push each id onto the bucket its
assignment names, on top of whatever the lists already hold (`build` never
clears them). -/
def populate (ls : List (List ℕ)) (asg : ℕ → ℕ) (cnt : ℕ) : List (List ℕ) :=
  (List.range cnt).foldl (fun acc i => bucketPush acc (asg i) i) ls

/-- `IVFIndex::build` on an engine in state `pos`: train the owned `KMeans`
(`k = n_lists`, `max_iter = 5`), then assign every vector to its nearest
centroid (same argmin loop, lowest index wins ties) and append its id to
that bucket.  Returns the updated index and engine state. -/
def IVFIndex.build (idx : IVFIndex) (ds : VectorDataset) (pos : ℕ) :
    Except CoreErr (IVFIndex × ℕ) :=
  (KMeans.train ds idx.n_lists 5 idx.dim pos).map (fun (cents, pos2) =>
    let asg := fun i => argminIdx (ds.get_vector i) cents idx.n_lists idx.dim
    (⟨idx.dim, idx.n_lists, cents,
      populate idx.inverted_lists asg ds.cnt⟩, pos2))

/-! #### `std::priority_queue<SearchResult>` (libstdc++ binary heap)

Max-heap on `SearchResult::operator<`, i.e. on the distance.  `heapPush`
is `push_back` + `std::push_heap`; `heapPop` is `std::pop_heap` +
`pop_back` (`__adjust_heap` transcribed from `bits/stl_heap.h`). -/

/-- Out-of-range reads never occur on the paths exercised; the default is a
dummy element. -/
def hGet (h : List SearchResult) (i : ℕ) : SearchResult := h.getD i ⟨0, 0⟩

/-- `__push_heap`: sift the hole up past every parent with a smaller
distance, then drop the value in. -/
def pushHeapGo (h : List SearchResult) (v : SearchResult) : ℕ → ℕ → List SearchResult
  | 0, hole => h.set hole v
  | fuel + 1, hole =>
      if hole = 0 then h.set hole v
      else
        let parent := (hole - 1) / 2
        if (hGet h parent).distance < v.distance then
          pushHeapGo (h.set hole (hGet h parent)) v fuel parent
        else h.set hole v

def heapPush (h : List SearchResult) (v : SearchResult) : List SearchResult :=
  let h2 := h ++ [v]
  pushHeapGo h2 v h2.length h.length

/-- The sift-up tail call of `__adjust_heap` stops at `topIndex = 0`
like `__push_heap`. -/
def adjustPushGo (h : List SearchResult) (v : SearchResult) : ℕ → ℕ → List SearchResult :=
  pushHeapGo h v

/-- `__adjust_heap` main loop: walk the hole down along the larger child
while a full pair of children exists. -/
def adjustHeapGo (v : SearchResult) (len : ℕ) :
    ℕ → List SearchResult → ℕ → ℕ → List SearchResult
  | 0, h, hole, _ => adjustPushGo h v h.length hole
  | fuel + 1, h, hole, second =>
      if second < (len - 1) / 2 then
        let s2 := 2 * (second + 1)
        let s3 := if (hGet h s2).distance < (hGet h (s2 - 1)).distance then s2 - 1 else s2
        adjustHeapGo v len fuel (h.set hole (hGet h s3)) s3 s3
      else
        if len % 2 = 0 ∧ second = (len - 2) / 2 then
          let s2 := 2 * (second + 1)
          adjustPushGo (h.set hole (hGet h (s2 - 1))) v h.length (s2 - 1)
        else adjustPushGo h v h.length hole

/-- `std::pop_heap` + `pop_back` on a heap with at least two elements:
the last element is re-inserted from the root by `__adjust_heap` over the
shortened range.  (`len = 0` in `__adjust_heap` would index with the signed
value `-1`; the one-element case below never reaches it.) -/
def heapPop (h : List SearchResult) : List SearchResult :=
  match h with
  | [] => []
  | [_] => []
  | _ =>
      let value := hGet h (h.length - 1)
      let len := h.length - 1
      adjustHeapGo value len len (h.take len) 0 0

/-- `top()`: the root, `none` on an empty queue (undefined behaviour in the
source). -/
def heapTop (h : List SearchResult) : Option SearchResult := h.head?

/-- One candidate of the coarse loop: push while below the limit, else
compare against `top()` — which the source reads even when the queue is
empty (`candidates_limit = 0`), the undefined access modelled by `none`. -/
def coarseStep (limit : ℕ) (h : List SearchResult) (c : SearchResult) :
    Option (List SearchResult) :=
  if h.length < limit then some (heapPush h c)
  else
    match heapTop h with
    | none => none
    | some t =>
        if c.distance < t.distance then some (heapPush (heapPop h) c)
        else some h

/-- The full coarse scan over the candidate stream. -/
def coarseScan (limit : ℕ) (cands : List SearchResult) :
    Option (List SearchResult) :=
  cands.foldlM (coarseStep limit) []

/-- The drain loop `while (!top_candidates.empty()) { push_back(top()); pop(); }`. -/
def drainHeap : ℕ → List SearchResult → List SearchResult
  | 0, _ => []
  | _, [] => []
  | fuel + 1, h =>
      match heapTop h with
      | none => []
      | some t => t :: drainHeap fuel (heapPop h)

/-! #### Bucket selection and the final sort -/

/-- `std::sort` on `std::pair<float,int>`: lexicographic `operator<`.  All
second components are distinct cluster ids, so the sorted result is the
unique lexicographically ordered permutation, independent of the sorting
algorithm; an insertion sort realises it. -/
def pairLt (p q : ℚ × ℕ) : Prop := p.1 < q.1 ∨ (p.1 = q.1 ∧ p.2 < q.2)

instance : DecidableRel pairLt := fun p q => by unfold pairLt; infer_instance

def insertPair (x : ℚ × ℕ) : List (ℚ × ℕ) → List (ℚ × ℕ)
  | [] => [x]
  | y :: ys => if pairLt x y then x :: y :: ys else y :: insertPair x ys

def sortPairs (l : List (ℚ × ℕ)) : List (ℚ × ℕ) :=
  l.foldl (fun acc x => insertPair x acc) []

/-- The probe loop: walk the sorted `(d_c, cluster)` list; stop once
`probed_count >= max_nprobe`, or once `probed_count > 0` and the candidate
distance strictly exceeds the threshold; otherwise probe the bucket. -/
def probeGo (maxnp : ℕ) (thr : ℚ) : List (ℚ × ℕ) → ℕ → List ℕ
  | [], _ => []
  | (d, c) :: rest, probed =>
      if maxnp ≤ probed then []
      else if 0 < probed ∧ thr < d then []
      else c :: probeGo maxnp thr rest (probed + 1)

/-- The query-to-centroid scores `(d_c, c)` in cluster order. -/
def clusterScores (idx : IVFIndex) (q : List ℚ) : List (ℚ × ℕ) :=
  (List.range idx.n_lists).map (fun c =>
    (l2_distance q (centroidAt idx.centroids idx.dim c), c))

/-- The list of probed cluster ids of one search (sorted scores, threshold
`d_c[0] * (1 + probe_ratio) + 1e-6`, probe loop).  `none` when
`clusters_scores` is empty (`clusters_scores[0]` would be out of bounds). -/
def searchProbed (idx : IVFIndex) (q : List ℚ) (pfac : ℚ) (maxnp : ℕ) :
    Option (List ℕ) :=
  match sortPairs (clusterScores idx q) with
  | [] => none
  | (d0, c0) :: rest =>
      some (probeGo maxnp (d0 * (1 + pfac) + 1 / 1000000) ((d0, c0) :: rest) 0)

/-- The candidate stream of the coarse stage: for every probed bucket, in
probe order, every stored id with its distance to the query, in bucket
order. -/
def candidateStream (idx : IVFIndex) (ds : VectorDataset) (q : List ℚ)
    (probed : List ℕ) : List SearchResult :=
  (probed.map (fun c =>
    (idx.inverted_lists.getD c []).map (fun i =>
      ⟨i, l2_distance q (ds.get_vector i)⟩))).flatten

/-- The final `std::sort` with `a.distance < b.distance`: for the short
ranges of the concrete runs below libstdc++ runs its (stable) insertion
sort; the element moves left past strictly larger distances only, so it
lands after any equal-distance element. -/
def insertByDist (x : SearchResult) : List SearchResult → List SearchResult
  | [] => [x]
  | y :: ys => if x.distance < y.distance then x :: y :: ys else y :: insertByDist x ys

def sortByDist (l : List SearchResult) : List SearchResult :=
  l.foldl (fun acc x => insertByDist x acc) []

/-- `IVFIndex::search`: centroid scores, sort, threshold, probe loop,
coarse heap of capacity `k * refinery_factor`, drain, ascending sort by
distance, first `k` results.  `none` models the two reachable undefined
accesses (`clusters_scores[0]` with no clusters; `top()` on an empty
heap). -/
def IVFIndex.search (idx : IVFIndex) (ds : VectorDataset) (q : List ℚ)
    (k : ℕ) (pfac : ℚ) (maxnp rfac : ℕ) : Option (List SearchResult) :=
  match searchProbed idx q pfac maxnp with
  | none => none
  | some probed =>
      (coarseScan (k * rfac) (candidateStream idx ds q probed)).map
        (fun heap =>
          (sortByDist (drainHeap heap.length heap)).take k)

/-! ### Spec-side definitions and concrete inputs -/

/-- The probing rule as the spec words it ("probe buckets in sorted order;
stop probing when either `max_nprobe` buckets have been probed or the next
candidate bucket's `d_c` strictly exceeds `threshold`; the first bucket is
always probed regardless of threshold"), applied to the sorted
`(d_c, cluster)` list.  Stated for comparison against the embedded probe
loop. -/
def specProbedBuckets (maxnp : ℕ) (thr : ℚ) : List (ℚ × ℕ) → List ℕ
  | [] => []
  | p :: rest =>
      p.2 :: ((rest.takeWhile (fun s => decide (s.1 ≤ thr))).take (maxnp - 1)).map Prod.snd

/-- Non-strict companion of `pairLt` (the lexicographic order `std::sort`
establishes on `std::pair<float,int>`). -/
def pairLe (p s : ℚ × ℕ) : Prop := p.1 < s.1 ∨ (p.1 = s.1 ∧ p.2 ≤ s.2)

instance : DecidableRel pairLe := fun p s => by unfold pairLe; infer_instance

/-- Results ordered by distance (the order the final `std::sort`
establishes; its comparator reads only `distance`). -/
def distLe (a b : SearchResult) : Prop := a.distance ≤ b.distance

instance : DecidableRel distLe := fun a b => by unfold distLe; infer_instance

/-- The claimed result order: ascending distance with ties broken by
ascending id. -/
def distIdLe (a b : SearchResult) : Prop :=
  a.distance < b.distance ∨ (a.distance = b.distance ∧ a.id ≤ b.id)

instance : DecidableRel distIdLe := fun a b => by unfold distIdLe; infer_instance

deriving instance DecidableEq for Except

/-- Two vectors both equal to `[1]`. -/
def dsPair : VectorDataset := ⟨1, [1, 1], 2⟩

/-- Three one-dimensional vectors `0`, `10`, `20`. -/
def dsTriple : VectorDataset := ⟨1, [0, 10, 20], 3⟩

/-- Four two-dimensional vectors `(0,0)`, `(10,0)`, `(10,6)`, `(0,7)`. -/
def dsQuad : VectorDataset := ⟨2, [0, 0, 10, 0, 10, 6, 0, 7], 4⟩

/-! ## Helper lemmas -/

theorem pairLe_trans {p s r : ℚ × ℕ} (h1 : pairLe p s) (h2 : pairLe s r) :
    pairLe p r := by
  rcases h1 with h1 | ⟨h1a, h1b⟩ <;> rcases h2 with h2 | ⟨h2a, h2b⟩
  · exact Or.inl (h1.trans h2)
  · exact Or.inl (h2a ▸ h1)
  · exact Or.inl (h1a ▸ h2)
  · exact Or.inr ⟨h1a.trans h2a, h1b.trans h2b⟩

theorem pairLe_of_not_pairLt {p s : ℚ × ℕ} (h : ¬ pairLt p s) : pairLe s p := by
  unfold pairLt at h
  push_neg at h
  rcases lt_or_eq_of_le h.1 with hlt | heq
  · exact Or.inl hlt
  · exact Or.inr ⟨heq, h.2 heq.symm⟩

theorem pairLe_of_pairLt {p s : ℚ × ℕ} (h : pairLt p s) : pairLe p s := by
  rcases h with h | ⟨h1, h2⟩
  · exact Or.inl h
  · exact Or.inr ⟨h1, h2.le⟩

theorem insertPair_perm (x : ℚ × ℕ) (l : List (ℚ × ℕ)) :
    (insertPair x l).Perm (x :: l) := by
  induction l with
  | nil => simp [insertPair]
  | cons y ys ih =>
      by_cases h : pairLt x y
      · simp [insertPair, if_pos h]
      · rw [insertPair, if_neg h]
        exact (ih.cons y).trans (List.Perm.swap x y ys)

theorem insertPair_sorted (x : ℚ × ℕ) {l : List (ℚ × ℕ)}
    (h : l.Sorted pairLe) : (insertPair x l).Sorted pairLe := by
  induction l with
  | nil => simp [insertPair]
  | cons y ys ih =>
      rw [List.sorted_cons] at h
      obtain ⟨hy, hys⟩ := h
      by_cases hlt : pairLt x y
      · rw [insertPair, if_pos hlt, List.sorted_cons]
        refine ⟨?_, List.sorted_cons.mpr ⟨hy, hys⟩⟩
        intro b hb
        rcases List.mem_cons.mp hb with rfl | hb
        · exact pairLe_of_pairLt hlt
        · exact pairLe_trans (pairLe_of_pairLt hlt) (hy b hb)
      · rw [insertPair, if_neg hlt, List.sorted_cons]
        refine ⟨?_, ih hys⟩
        intro b hb
        rcases List.mem_cons.mp ((insertPair_perm x ys).mem_iff.mp hb) with hbx | hb
        · exact hbx ▸ pairLe_of_not_pairLt hlt
        · exact hy b hb

theorem sortPairs_go_perm (l acc : List (ℚ × ℕ)) :
    (l.foldl (fun a x => insertPair x a) acc).Perm (acc ++ l) := by
  induction l generalizing acc with
  | nil => simp
  | cons x xs ih =>
      rw [List.foldl_cons]
      refine (ih (insertPair x acc)).trans ?_
      refine (((insertPair_perm x acc).append_right xs).trans ?_)
      exact List.perm_middle.symm

theorem sortPairs_go_sorted (l : List (ℚ × ℕ)) {acc : List (ℚ × ℕ)}
    (h : acc.Sorted pairLe) :
    (l.foldl (fun a x => insertPair x a) acc).Sorted pairLe := by
  induction l generalizing acc with
  | nil => exact h
  | cons x xs ih => exact ih (insertPair_sorted x h)

theorem sortPairs_perm (l : List (ℚ × ℕ)) : (sortPairs l).Perm l := by
  simpa using sortPairs_go_perm l []

theorem sortPairs_sorted (l : List (ℚ × ℕ)) : (sortPairs l).Sorted pairLe :=
  sortPairs_go_sorted l (by simp)

theorem probeGo_takeWhile (maxnp : ℕ) (thr : ℚ) (l : List (ℚ × ℕ)) :
    ∀ p, 1 ≤ p →
      probeGo maxnp thr l p =
        ((l.takeWhile (fun s => decide (s.1 ≤ thr))).take (maxnp - p)).map Prod.snd := by
  induction l with
  | nil => intro p _; simp [probeGo]
  | cons x xs ih =>
      intro p hp
      obtain ⟨d, c⟩ := x
      by_cases hstop : maxnp ≤ p
      · have : maxnp - p = 0 := Nat.sub_eq_zero_of_le hstop
        simp [probeGo, if_pos hstop, this]
      · by_cases hthr : thr < d
        · have hd : ¬ (d ≤ thr) := not_le.mpr hthr
          rw [probeGo, if_neg hstop, if_pos ⟨Nat.lt_of_lt_of_le Nat.zero_lt_one hp, hthr⟩]
          simp [List.takeWhile_cons, hd]
        · have hd : d ≤ thr := not_lt.mp hthr
          rw [probeGo, if_neg hstop]
          rw [if_neg (by intro hcon; exact hthr hcon.2)]
          rw [ih (p + 1) (by omega)]
          obtain ⟨m, hm⟩ : ∃ m, maxnp - p = m + 1 :=
            ⟨maxnp - p - 1, by omega⟩
          have h2 : maxnp - (p + 1) = m := by omega
          simp only [List.takeWhile_cons, hd, decide_True, if_true, hm, h2,
            List.take_succ_cons, List.map_cons]

theorem clusterScores_length (idx : IVFIndex) (q : List ℚ) :
    (clusterScores idx q).length = idx.n_lists := by
  simp [clusterScores]

/-! ## Claims -/

/-- C1: for every index with `n_lists ≥ 1` and `max_nprobe ≥ 1` and every
query, the search sorts the `(d_c, cluster)` scores ascending, sets
`threshold = d_c[0] * (1 + probe_ratio) + 1e-6`, always probes the first
(closest) bucket, stops exactly at `max_nprobe` probed buckets or at the
first bucket whose `d_c` strictly exceeds the threshold, and the probed
buckets are exactly the prefix of the sorted order that this rule
determines (`specProbedBuckets` transcribes the spec sentence). -/
theorem C1_probe_rule (idx : IVFIndex) (q : List ℚ) (pfac : ℚ) (maxnp : ℕ)
    (hn : 0 < idx.n_lists) (hm : 1 ≤ maxnp) :
    ∃ d0 c0 rest,
      sortPairs (clusterScores idx q) = (d0, c0) :: rest ∧
      ((d0, c0) :: rest).Perm (clusterScores idx q) ∧
      ((d0, c0) :: rest).Sorted pairLe ∧
      searchProbed idx q pfac maxnp =
        some (specProbedBuckets maxnp (d0 * (1 + pfac) + 1 / 1000000) ((d0, c0) :: rest)) ∧
      (specProbedBuckets maxnp (d0 * (1 + pfac) + 1 / 1000000)
        ((d0, c0) :: rest)).head? = some c0 ∧
      specProbedBuckets maxnp (d0 * (1 + pfac) + 1 / 1000000) ((d0, c0) :: rest) <+:
        ((d0, c0) :: rest).map Prod.snd := by
  have hlen : (sortPairs (clusterScores idx q)).length = idx.n_lists := by
    rw [(sortPairs_perm (clusterScores idx q)).length_eq, clusterScores_length]
  obtain ⟨⟨d0, c0⟩, rest, hs⟩ :
      ∃ p rest, sortPairs (clusterScores idx q) = p :: rest := by
    cases hsp : sortPairs (clusterScores idx q) with
    | nil => rw [hsp] at hlen; simp at hlen; omega
    | cons p rest => exact ⟨p, rest, rfl⟩
  refine ⟨d0, c0, rest, hs, ?_, ?_, ?_, ?_, ?_⟩
  · exact hs ▸ sortPairs_perm (clusterScores idx q)
  · exact hs ▸ sortPairs_sorted (clusterScores idx q)
  · rw [searchProbed, hs]
    simp only [probeGo]
    rw [if_neg (by omega), if_neg (by simp)]
    rw [probeGo_takeWhile maxnp (d0 * (1 + pfac) + 1 / 1000000) rest 1 le_rfl]
    rfl
  · rfl
  · have hpre : (rest.takeWhile
        (fun s => decide (s.1 ≤ d0 * (1 + pfac) + 1 / 1000000))).take (maxnp - 1) <+: rest :=
      (List.take_prefix _ _).trans (List.takeWhile_prefix _)
    obtain ⟨t, ht⟩ := hpre
    refine ⟨t.map Prod.snd, ?_⟩
    simp only [specProbedBuckets, List.cons_append, ← List.map_append, ht, List.map_cons]

/-- Witness for C1 at a concrete input: the one-bucket index over `dsPair`
after its build, query `[3]`, `max_nprobe = 1`. -/
theorem C1_probe_rule_witness :
    0 < (IVFIndex.mk 1 1 [1] [[0, 1]]).n_lists ∧ 1 ≤ 1 ∧
    ∃ d0 c0 rest,
      sortPairs (clusterScores (IVFIndex.mk 1 1 [1] [[0, 1]]) [3]) = (d0, c0) :: rest ∧
      ((d0, c0) :: rest).Perm (clusterScores (IVFIndex.mk 1 1 [1] [[0, 1]]) [3]) ∧
      ((d0, c0) :: rest).Sorted pairLe ∧
      searchProbed (IVFIndex.mk 1 1 [1] [[0, 1]]) [3] (1 / 5) 1 =
        some (specProbedBuckets 1 (d0 * (1 + 1 / 5) + 1 / 1000000) ((d0, c0) :: rest)) ∧
      (specProbedBuckets 1 (d0 * (1 + 1 / 5) + 1 / 1000000)
        ((d0, c0) :: rest)).head? = some c0 ∧
      specProbedBuckets 1 (d0 * (1 + 1 / 5) + 1 / 1000000) ((d0, c0) :: rest) <+:
        ((d0, c0) :: rest).map Prod.snd :=
  ⟨Nat.zero_lt_one, le_rfl,
    C1_probe_rule (IVFIndex.mk 1 1 [1] [[0, 1]]) [3] (1 / 5) 1 Nat.zero_lt_one le_rfl⟩

theorem insertByDist_perm (x : SearchResult) (l : List SearchResult) :
    (insertByDist x l).Perm (x :: l) := by
  induction l with
  | nil => simp [insertByDist]
  | cons y ys ih =>
      by_cases h : x.distance < y.distance
      · simp [insertByDist, if_pos h]
      · rw [insertByDist, if_neg h]
        exact (ih.cons y).trans (List.Perm.swap x y ys)

theorem insertByDist_sorted (x : SearchResult) {l : List SearchResult}
    (h : l.Sorted distLe) : (insertByDist x l).Sorted distLe := by
  induction l with
  | nil => simp [insertByDist]
  | cons y ys ih =>
      rw [List.sorted_cons] at h
      obtain ⟨hy, hys⟩ := h
      by_cases hlt : x.distance < y.distance
      · rw [insertByDist, if_pos hlt, List.sorted_cons]
        refine ⟨?_, List.sorted_cons.mpr ⟨hy, hys⟩⟩
        intro b hb
        rcases List.mem_cons.mp hb with hbx | hb
        · exact hbx ▸ hlt.le
        · exact le_trans hlt.le (hy b hb)
      · rw [insertByDist, if_neg hlt, List.sorted_cons]
        refine ⟨?_, ih hys⟩
        intro b hb
        rcases List.mem_cons.mp ((insertByDist_perm x ys).mem_iff.mp hb) with hbx | hb
        · exact hbx ▸ le_of_not_lt hlt
        · exact hy b hb

theorem sortByDist_go_sorted (l : List SearchResult) {acc : List SearchResult}
    (h : acc.Sorted distLe) :
    (l.foldl (fun a x => insertByDist x a) acc).Sorted distLe := by
  induction l generalizing acc with
  | nil => exact h
  | cons x xs ih => exact ih (insertByDist_sorted x h)

theorem sortByDist_sorted (l : List SearchResult) :
    (sortByDist l).Sorted distLe :=
  sortByDist_go_sorted l (by simp)

/-- C2 (amended): every successful search returns a list sorted by
non-decreasing distance.  (The tie order among equal distances is whatever
the heap drain produced — the final comparator reads only `distance` — so
ascending ids at ties are not guaranteed; see the counterexample.) -/
theorem C2_sorted_by_distance (idx : IVFIndex) (ds : VectorDataset)
    (q : List ℚ) (k : ℕ) (pfac : ℚ) (maxnp rfac : ℕ) (res : List SearchResult)
    (h : idx.search ds q k pfac maxnp rfac = some res) :
    res.Pairwise distLe := by
  unfold IVFIndex.search at h
  cases hsp : searchProbed idx q pfac maxnp with
  | none => rw [hsp] at h; simp at h
  | some probed =>
      rw [hsp] at h
      simp only [Option.map_eq_some'] at h
      obtain ⟨heap, _, hres⟩ := h
      rw [← hres]
      exact List.Pairwise.sublist (List.take_sublist k _)
        (sortByDist_sorted (drainHeap heap.length heap))

/-- Witness for C2's amended theorem: the one-bucket index holding ids 0
and 1 of `dsPair`, query `[1]`, `k = 2`. -/
theorem C2_sorted_by_distance_witness :
    (IVFIndex.mk 1 1 [1] [[0, 1]]).search dsPair [1] 2 (1 / 5) 20 5 =
      some [⟨0, 0⟩, ⟨1, 0⟩] ∧
    ([⟨0, 0⟩, ⟨1, 0⟩] : List SearchResult).Pairwise distLe := by
  have h : (IVFIndex.mk 1 1 [1] [[0, 1]]).search dsPair [1] 2 (1 / 5) 20 5 =
      some [⟨0, 0⟩, ⟨1, 0⟩] := of_decide_eq_true (by with_unfolding_all rfl)
  exact ⟨h, C2_sorted_by_distance _ _ _ _ _ _ _ _ h⟩

/-- C2 (counterexample): a fresh process builds the two-bucket index over
`dsQuad` (the seed-42 engine samples init indices 1 and 3; k-means
converges to centroids `(10,3)` and `(0,3.5)` with buckets `[1,2]` and
`[0,3]`); the query `(5,0)` is at squared distance 25 from both id 0 and
id 1, id 1's bucket is probed first, and the returned list is
`[(1,25), (0,25)]`: equal distances with ids in descending order, so ties
are not broken by ascending id. -/
theorem C2_counterexample :
    (IVFIndex.build (IVFIndex.fresh 2 2) dsQuad 0).map (fun p =>
      p.1.search dsQuad [5, 0] 2 (1 / 5) 20 5) =
      Except.ok (some [⟨1, 25⟩, ⟨0, 25⟩]) ∧
    ¬ ([⟨1, 25⟩, ⟨0, 25⟩] : List SearchResult).Pairwise distIdLe := by
  constructor
  · exact of_decide_eq_true (by with_unfolding_all rfl)
  · exact of_decide_eq_true (by with_unfolding_all rfl)

theorem get_vector_length {ds : VectorDataset} (hwf : ds.wf) {i : ℕ}
    (hi : i < ds.cnt) : (ds.get_vector i).length = ds.dim := by
  have hmul : i * ds.dim + ds.dim ≤ ds.cnt * ds.dim := by
    have := Nat.mul_le_mul_right ds.dim (Nat.succ_le_of_lt hi)
    simpa [Nat.succ_mul] using this
  have hwf2 : ds.data.length = ds.cnt * ds.dim := hwf
  simp only [VectorDataset.get_vector, List.length_take, List.length_drop, hwf2]
  omega

theorem vecSum_length (dim : ℕ) (vs : List (List ℚ))
    (h : ∀ v ∈ vs, v.length = dim) : (vecSum dim vs).length = dim := by
  unfold vecSum
  have hgen : ∀ acc : List ℚ, acc.length = dim →
      (vs.foldl (fun a v => List.zipWith (· + ·) a v) acc).length = dim := by
    induction vs with
    | nil => intro acc hacc; simpa using hacc
    | cons v vs ih =>
        intro acc hacc
        rw [List.foldl_cons]
        refine ih (fun w hw => h w (List.mem_cons_of_mem v hw)) _ ?_
        rw [List.length_zipWith, hacc, h v (List.mem_cons_self v vs)]
        exact Nat.min_self dim
  exact hgen _ (List.length_replicate dim 0)

theorem clusterMembers_lt {ds : VectorDataset} {asg : List ℕ} {c i : ℕ}
    (h : i ∈ clusterMembers ds asg c) : i < ds.cnt := by
  unfold clusterMembers at h
  exact List.mem_range.mp (List.mem_of_mem_filter h)

theorem flatten_take_drop (bs : List (List ℚ)) (dim : ℕ)
    (h : ∀ b ∈ bs, b.length = dim) :
    ∀ c, c < bs.length → (bs.flatten.drop (c * dim)).take dim = bs.getD c [] := by
  induction bs with
  | nil => intro c hc; simp at hc
  | cons b rest ih =>
      intro c hc
      have hb : b.length = dim := h b (List.mem_cons_self b rest)
      cases c with
      | zero =>
          simp only [Nat.zero_mul, List.drop_zero, List.flatten_cons, List.getD]
          rw [← hb, List.take_left]
          rfl
      | succ c =>
          have hstep : (c + 1) * dim = b.length + c * dim := by
            rw [hb]; ring
          rw [List.flatten_cons, hstep, ← List.drop_drop, List.drop_left]
          have : ((b :: rest).getD (c + 1) []) = rest.getD c [] := rfl
          rw [this]
          exact ih (fun w hw => h w (List.mem_cons_of_mem b hw)) c
            (Nat.lt_of_succ_lt_succ hc)

theorem mapRange_getD (f : ℕ → List ℚ) (k c : ℕ) (hc : c < k) :
    ((List.range k).map f).getD c [] = f c := by
  rw [List.getD_eq_getElem?_getD, List.getElem?_map, List.getElem?_range hc]
  rfl

/-- C3 (amended): in every update step, a centroid that received zero
assignments is set to the zero vector — the zero-initialised row of
`new_centroids` is kept (it is scaled only when `counts[c] > 0`), so the
previous centroid value is NOT retained unless it was already zero. -/
theorem C3_empty_cluster_zeroed (ds : VectorDataset) (asg : List ℕ)
    (k c : ℕ) (hwf : ds.wf) (hc : c < k)
    (hempty : clusterMembers ds asg c = []) :
    centroidAt (updateStep ds asg k ds.dim) ds.dim c =
      List.replicate ds.dim 0 := by
  have hlen : ∀ b ∈ (List.range k).map (fun c0 =>
      let ms := clusterMembers ds asg c0
      if ms.length = 0 then List.replicate ds.dim 0
      else (vecSum ds.dim (ms.map ds.get_vector)).map
        (· * (1 / (ms.length : ℚ)))), b.length = ds.dim := by
    intro b hb
    obtain ⟨c0, _, rfl⟩ := List.mem_map.mp hb
    by_cases hz : (clusterMembers ds asg c0).length = 0
    · simp [hz]
    · simp only [hz, if_neg, if_false, List.length_map]
      refine vecSum_length ds.dim _ ?_
      intro v hv
      obtain ⟨i, hi, rfl⟩ := List.mem_map.mp hv
      exact get_vector_length hwf (clusterMembers_lt hi)
  unfold centroidAt updateStep
  rw [flatten_take_drop _ ds.dim hlen c (by simpa using hc),
    mapRange_getD _ _ _ hc]
  simp [hempty]

/-- Witness for C3's amended theorem: `dsPair` with both vectors assigned
to cluster 0 leaves cluster 1 empty, and the update writes the zero row. -/
theorem C3_empty_cluster_zeroed_witness :
    dsPair.wf ∧ 1 < 2 ∧ clusterMembers dsPair [0, 0] 1 = [] ∧
    centroidAt (updateStep dsPair [0, 0] 2 dsPair.dim) dsPair.dim 1 =
      List.replicate dsPair.dim 0 :=
  ⟨by decide, by decide, by decide,
    C3_empty_cluster_zeroed dsPair [0, 0] 2 1 (by decide) (by decide) (by decide)⟩

/-- C3 (counterexample): on `dsPair` (two copies of `[1]`, `k = 2`, fresh
seed-42 engine) the init centroids are `[1, 1]`; iteration 0 assigns both
vectors to cluster 0 (lowest index wins the tie), cluster 1 receives zero
assignments, and the update step maps centroid 1 from `[1]` to `[0]` —
zeroed, not retained — so the full training ends with centroids
`[1, 0]`. -/
theorem C3_counterexample :
    (initCentroids dsPair 1 (List.replicate 2 0) (List.range 2) 0).1 = [1, 1] ∧
    assignAll dsPair [1, 1] 2 = [0, 0] ∧
    clusterMembers dsPair [0, 0] 1 = [] ∧
    centroidAt [1, 1] 1 1 = [1] ∧
    updateStep dsPair [0, 0] 2 1 = [1, 0] ∧
    centroidAt [1, 0] 1 1 = [0] ∧
    ([1] : List ℚ) ≠ [0] ∧
    KMeans.train dsPair 2 5 1 0 = Except.ok ([1, 0], 2) :=
  of_decide_eq_true (by with_unfolding_all rfl)

theorem bucketPush_length (ls : List (List ℕ)) (b i : ℕ) :
    (bucketPush ls b i).length = ls.length := by
  induction ls generalizing b with
  | nil => rfl
  | cons l rest ih =>
      cases b with
      | zero => rfl
      | succ b => simp [bucketPush, ih b]

theorem bucketPush_flatten_perm (ls : List (List ℕ)) (b i : ℕ)
    (hb : b < ls.length) :
    (bucketPush ls b i).flatten.Perm (ls.flatten ++ [i]) := by
  induction ls generalizing b with
  | nil => simp at hb
  | cons l rest ih =>
      cases b with
      | zero =>
          simp only [bucketPush, List.flatten_cons, List.append_assoc]
          exact (List.Perm.append_left l (List.perm_append_comm))
      | succ b =>
          simp only [bucketPush, List.flatten_cons, List.append_assoc]
          exact List.Perm.append_left l (ih b (Nat.lt_of_succ_lt_succ hb))

theorem populate_succ (ls : List (List ℕ)) (asg : ℕ → ℕ) (cnt : ℕ) :
    populate ls asg (cnt + 1) = bucketPush (populate ls asg cnt) (asg cnt) cnt := by
  unfold populate
  rw [List.range_succ, List.foldl_append, List.foldl_cons, List.foldl_nil]

theorem populate_length (ls : List (List ℕ)) (asg : ℕ → ℕ) (cnt : ℕ) :
    (populate ls asg cnt).length = ls.length := by
  induction cnt with
  | zero => rfl
  | succ cnt ih => rw [populate_succ, bucketPush_length, ih]

theorem populate_flatten_perm (ls : List (List ℕ)) (asg : ℕ → ℕ) (cnt : ℕ)
    (h : ∀ i, i < cnt → asg i < ls.length) :
    (populate ls asg cnt).flatten.Perm (ls.flatten ++ List.range cnt) := by
  induction cnt with
  | zero => simp [populate]
  | succ cnt ih =>
      rw [populate_succ]
      have hstep := bucketPush_flatten_perm (populate ls asg cnt) (asg cnt) cnt
        (by rw [populate_length]; exact h cnt (Nat.lt_succ_self cnt))
      refine hstep.trans ?_
      refine ((ih (fun i hi => h i (Nat.lt_succ_of_lt hi))).append_right [cnt]).trans ?_
      rw [List.range_succ, List.append_assoc]

theorem argminGo_mem (vec cents : List ℚ) (dim : ℕ) (ks : List ℕ)
    (b : ℕ) (m : Option ℚ) :
    (argminGo vec cents dim ks (b, m)).1 = b ∨
      (argminGo vec cents dim ks (b, m)).1 ∈ ks := by
  induction ks generalizing b m with
  | nil => exact Or.inl rfl
  | cons c cs ih =>
      cases m with
      | none =>
          have hstep : argminGo vec cents dim (c :: cs) (b, none) =
              argminGo vec cents dim cs
                (c, some (l2_distance vec (centroidAt cents dim c))) := rfl
          rw [hstep]
          rcases ih c (some (l2_distance vec (centroidAt cents dim c))) with h | h
          · right; rw [h]; exact List.mem_cons_self c cs
          · exact Or.inr (List.mem_cons_of_mem c h)
      | some mv =>
          have hstep : argminGo vec cents dim (c :: cs) (b, some mv) =
              if l2_distance vec (centroidAt cents dim c) < mv then
                argminGo vec cents dim cs
                  (c, some (l2_distance vec (centroidAt cents dim c)))
              else argminGo vec cents dim cs (b, some mv) := rfl
          rw [hstep]
          by_cases hlt : l2_distance vec (centroidAt cents dim c) < mv
          · rw [if_pos hlt]
            rcases ih c (some (l2_distance vec (centroidAt cents dim c))) with h | h
            · right; rw [h]; exact List.mem_cons_self c cs
            · exact Or.inr (List.mem_cons_of_mem c h)
          · rw [if_neg hlt]
            rcases ih b (some mv) with h | h
            · exact Or.inl h
            · exact Or.inr (List.mem_cons_of_mem c h)

theorem argminIdx_lt (vec cents : List ℚ) (k dim : ℕ) (hk : 0 < k) :
    argminIdx vec cents k dim < k := by
  unfold argminIdx
  rcases argminGo_mem vec cents dim (List.range k) 0 none with h | h
  · rw [h]; exact hk
  · exact List.mem_range.mp h

theorem flatten_replicate_nil (n : ℕ) :
    (List.replicate n ([] : List ℕ)).flatten = [] := by
  induction n with
  | zero => rfl
  | succ n ih => simp [List.replicate_succ, ih]

/-- Destructuring a successful `build`: the produced inverted lists are the
old ones with every id pushed onto its argmin bucket, and the bucket count
is unchanged. -/
theorem build_ok_lists {idx idx2 : IVFIndex} {ds : VectorDataset}
    {pos pos2 : ℕ}
    (hb : IVFIndex.build idx ds pos = .ok (idx2, pos2)) :
    ∃ cents, idx2 = ⟨idx.dim, idx.n_lists, cents,
      populate idx.inverted_lists
        (fun i => argminIdx (ds.get_vector i) cents idx.n_lists idx.dim)
        ds.cnt⟩ := by
  unfold IVFIndex.build at hb
  cases htr : KMeans.train ds idx.n_lists 5 idx.dim pos with
  | error e => rw [htr] at hb; simp [Except.map] at hb
  | ok val =>
      obtain ⟨cents, p2⟩ := val
      rw [htr] at hb
      simp only [Except.map, Except.ok.injEq, Prod.mk.injEq] at hb
      exact ⟨cents, hb.1.symm⟩

/-- The partition fact shared by the build theorems: one `build` on a fresh
index leaves the lists' concatenation a permutation of `range count`. -/
theorem build_fresh_perm {dim n_lists pos pos2 : ℕ} {ds : VectorDataset}
    {idx2 : IVFIndex} (hn : 0 < n_lists)
    (hb : IVFIndex.build (IVFIndex.fresh dim n_lists) ds pos = .ok (idx2, pos2)) :
    idx2.inverted_lists.flatten.Perm (List.range ds.cnt) := by
  obtain ⟨cents, rfl⟩ := build_ok_lists hb
  refine (populate_flatten_perm _ _ _ ?_).trans ?_
  · intro i _
    simp only [IVFIndex.fresh, List.length_replicate]
    exact argminIdx_lt _ _ _ _ hn
  · simp only [IVFIndex.fresh, flatten_replicate_nil, List.nil_append]
    exact List.Perm.refl _

/-- C4: after a single `build` on a fresh index with at least one bucket,
the inverted lists hold every id `0 … count-1` exactly once — their
concatenation is a permutation of `range count` — and they are pairwise
disjoint. -/
theorem C4_partition (dim n_lists pos pos2 : ℕ) (ds : VectorDataset)
    (idx2 : IVFIndex) (hn : 0 < n_lists)
    (hb : IVFIndex.build (IVFIndex.fresh dim n_lists) ds pos = .ok (idx2, pos2)) :
    idx2.inverted_lists.flatten.Perm (List.range ds.cnt) ∧
    idx2.inverted_lists.Pairwise List.Disjoint := by
  have hperm := build_fresh_perm hn hb
  refine ⟨hperm, ?_⟩
  have hnodup : idx2.inverted_lists.flatten.Nodup :=
    hperm.nodup_iff.mpr (List.nodup_range ds.cnt)
  exact (List.nodup_flatten.mp hnodup).2

/-- Witness for C4: the single-bucket build over `dsPair`. -/
theorem C4_partition_witness :
    0 < 1 ∧
    IVFIndex.build (IVFIndex.fresh 1 1) dsPair 0 =
      .ok (IVFIndex.mk 1 1 [1] [[0, 1]], 1) ∧
    ((IVFIndex.mk 1 1 [1] [[0, 1]]).inverted_lists.flatten.Perm
      (List.range dsPair.cnt) ∧
     (IVFIndex.mk 1 1 [1] [[0, 1]]).inverted_lists.Pairwise List.Disjoint) := by
  have hb : IVFIndex.build (IVFIndex.fresh 1 1) dsPair 0 =
      .ok (IVFIndex.mk 1 1 [1] [[0, 1]], 1) :=
    of_decide_eq_true (by with_unfolding_all rfl)
  exact ⟨Nat.zero_lt_one, hb, C4_partition 1 1 0 1 dsPair _ Nat.zero_lt_one hb⟩

/-- C10: `build` never clears the inverted lists, so a second `build` over
the same dataset appends every id a second time: afterwards each id below
`count` occurs exactly twice across the lists and the partition invariant
(no duplicates) is broken whenever the dataset is non-empty. -/
theorem C10_rebuild_duplicates (dim n_lists pos pos2 pos3 : ℕ)
    (ds : VectorDataset) (idx2 idx3 : IVFIndex) (hn : 0 < n_lists)
    (hb1 : IVFIndex.build (IVFIndex.fresh dim n_lists) ds pos = .ok (idx2, pos2))
    (hb2 : IVFIndex.build idx2 ds pos2 = .ok (idx3, pos3)) :
    (∀ v, v < ds.cnt → idx3.inverted_lists.flatten.count v = 2) ∧
    (0 < ds.cnt → ¬ idx3.inverted_lists.flatten.Nodup) := by
  have hperm1 : idx2.inverted_lists.flatten.Perm (List.range ds.cnt) :=
    build_fresh_perm hn hb1
  have hn2 : idx2.n_lists = n_lists := by
    obtain ⟨cents, rfl⟩ := build_ok_lists hb1; rfl
  have hlen2 : idx2.inverted_lists.length = n_lists := by
    obtain ⟨cents, rfl⟩ := build_ok_lists hb1
    simp [populate_length, IVFIndex.fresh]
  have hperm3 : idx3.inverted_lists.flatten.Perm
      (List.range ds.cnt ++ List.range ds.cnt) := by
    obtain ⟨cents2, rfl⟩ := build_ok_lists hb2
    refine (populate_flatten_perm _ _ _ ?_).trans ?_
    · intro i _
      rw [hlen2, ← hn2]
      exact argminIdx_lt _ _ _ _ (hn2 ▸ hn)
    · exact hperm1.append_right _
  constructor
  · intro v hv
    rw [hperm3.count_eq, List.count_append]
    have h1 : (List.range ds.cnt).count v = 1 :=
      List.count_eq_one_of_mem (List.nodup_range ds.cnt) (List.mem_range.mpr hv)
    omega
  · intro hcnt hnodup
    have h2 := List.nodup_iff_count_le_one.mp hnodup 0
    have h3 : idx3.inverted_lists.flatten.count 0 = 2 := by
      rw [hperm3.count_eq, List.count_append]
      have h1 : (List.range ds.cnt).count 0 = 1 :=
        List.count_eq_one_of_mem (List.nodup_range ds.cnt) (List.mem_range.mpr hcnt)
      omega
    omega

/-- Witness for C10: two successive builds over `dsPair` leave the single
bucket holding `[0, 1, 0, 1]`. -/
theorem C10_rebuild_duplicates_witness :
    0 < 1 ∧
    IVFIndex.build (IVFIndex.fresh 1 1) dsPair 0 =
      .ok (IVFIndex.mk 1 1 [1] [[0, 1]], 1) ∧
    IVFIndex.build (IVFIndex.mk 1 1 [1] [[0, 1]]) dsPair 1 =
      .ok (IVFIndex.mk 1 1 [1] [[0, 1, 0, 1]], 2) ∧
    ((∀ v, v < dsPair.cnt →
        (IVFIndex.mk 1 1 [1] [[0, 1, 0, 1]]).inverted_lists.flatten.count v = 2) ∧
     (0 < dsPair.cnt →
        ¬ (IVFIndex.mk 1 1 [1] [[0, 1, 0, 1]]).inverted_lists.flatten.Nodup)) := by
  have hb1 : IVFIndex.build (IVFIndex.fresh 1 1) dsPair 0 =
      .ok (IVFIndex.mk 1 1 [1] [[0, 1]], 1) :=
    of_decide_eq_true (by with_unfolding_all rfl)
  have hb2 : IVFIndex.build (IVFIndex.mk 1 1 [1] [[0, 1]]) dsPair 1 =
      .ok (IVFIndex.mk 1 1 [1] [[0, 1, 0, 1]], 2) :=
    of_decide_eq_true (by with_unfolding_all rfl)
  exact ⟨Nat.zero_lt_one, hb1, hb2,
    C10_rebuild_duplicates 1 1 0 1 2 dsPair _ _ Nat.zero_lt_one hb1 hb2⟩

/-- C5: `add` fails with the dimension-mismatch error exactly when the
vector length differs from `dim` (the C++ throw precedes every mutation, so
the failing call leaves `data_` and `cnt_` untouched); a successful call
appends the vector, increments the count, and stores the vector under the
id equal to the pre-call count (the C++ member itself returns `void`; the
new id is the index under which the vector is retrievable). -/
theorem C5_add (d : VectorDataset) (v : List ℚ) (hwf : d.wf) :
    (v.length ≠ d.dim → d.add v = .error .dimensionMismatch) ∧
    (v.length = d.dim →
      d.add v = .ok ⟨d.dim, d.data ++ v, d.cnt + 1⟩ ∧
      (VectorDataset.mk d.dim (d.data ++ v) (d.cnt + 1)).get_vector d.cnt = v ∧
      (VectorDataset.mk d.dim (d.data ++ v) (d.cnt + 1)).wf) := by
  have hwf2 : d.data.length = d.cnt * d.dim := hwf
  constructor
  · intro h
    unfold VectorDataset.add
    rw [if_pos h]
  · intro h
    refine ⟨?_, ?_, ?_⟩
    · unfold VectorDataset.add
      rw [if_neg (by simp [h])]
    · show ((d.data ++ v).drop (d.cnt * d.dim)).take d.dim = v
      rw [show d.cnt * d.dim = d.data.length from hwf2.symm]
      rw [List.drop_left, ← h, List.take_length]
    · show (d.data ++ v).length = (d.cnt + 1) * d.dim
      rw [List.length_append, hwf2, h]
      ring

/-- Witness for C5 at `dsPair` and the vector `[4]`. -/
theorem C5_add_witness :
    dsPair.wf ∧
    (([4] : List ℚ).length ≠ dsPair.dim →
      dsPair.add [4] = .error .dimensionMismatch) ∧
    (([4] : List ℚ).length = dsPair.dim →
      dsPair.add [4] = .ok ⟨dsPair.dim, dsPair.data ++ [4], dsPair.cnt + 1⟩ ∧
      (VectorDataset.mk dsPair.dim (dsPair.data ++ [4])
        (dsPair.cnt + 1)).get_vector dsPair.cnt = [4] ∧
      (VectorDataset.mk dsPair.dim (dsPair.data ++ [4]) (dsPair.cnt + 1)).wf) :=
  ⟨by decide, C5_add dsPair [4] (by decide)⟩

theorem replicate_nil_getD {α : Type} (n c : ℕ) :
    (List.replicate n ([] : List α)).getD c [] = [] := by
  induction n generalizing c with
  | zero => cases c <;> rfl
  | succ n ih =>
      cases c with
      | zero => rfl
      | succ c => simp [List.replicate_succ, ih c]

/-- C6 (amended): the source performs no built-state check and has no
`NotBuilt` error; a search on a freshly constructed (never built) index
succeeds and returns the empty result list, because every inverted list is
empty (the zeroed centroids still produce scores and probed buckets). -/
theorem C6_unbuilt_search_empty (dim n_lists : ℕ) (ds : VectorDataset)
    (q : List ℚ) (k : ℕ) (pfac : ℚ) (maxnp rfac : ℕ) (hn : 0 < n_lists) :
    (IVFIndex.fresh dim n_lists).search ds q k pfac maxnp rfac = some [] := by
  have hlen : (sortPairs (clusterScores (IVFIndex.fresh dim n_lists) q)).length
      = n_lists := by
    rw [(sortPairs_perm _).length_eq, clusterScores_length]
    rfl
  unfold IVFIndex.search
  cases hsp : searchProbed (IVFIndex.fresh dim n_lists) q pfac maxnp with
  | none =>
      exfalso
      unfold searchProbed at hsp
      cases hs2 : sortPairs (clusterScores (IVFIndex.fresh dim n_lists) q) with
      | nil => rw [hs2] at hlen; simp at hlen; omega
      | cons p rest => rw [hs2] at hsp; simp at hsp
  | some probed =>
      have hcs : candidateStream (IVFIndex.fresh dim n_lists) ds q probed = [] := by
        unfold candidateStream
        rw [List.flatten_eq_nil_iff]
        intro x hx
        obtain ⟨c, _, rfl⟩ := List.mem_map.mp hx
        rw [show (IVFIndex.fresh dim n_lists).inverted_lists
            = List.replicate n_lists [] from rfl]
        rw [replicate_nil_getD]
        rfl
      show Option.map (fun heap => List.take k (sortByDist (drainHeap heap.length heap)))
        (coarseScan (k * rfac) (candidateStream (IVFIndex.fresh dim n_lists) ds q probed)) = some []
      rw [hcs]
      simp [coarseScan, drainHeap, sortByDist]

/-- Witness for C6's amended theorem: a fresh two-bucket index. -/
theorem C6_unbuilt_search_empty_witness :
    0 < 2 ∧
    (IVFIndex.fresh 1 2).search dsTriple [7] 3 (1 / 5) 20 5 = some [] :=
  ⟨Nat.zero_lt_two,
    C6_unbuilt_search_empty 1 2 dsTriple [7] 3 (1 / 5) 20 5 Nat.zero_lt_two⟩

/-- C6 (counterexample): searching the never-built one-bucket index over
`dsPair` does not fail — there is no `NotBuilt` error anywhere in the
source — it succeeds and returns the empty list. -/
theorem C6_counterexample :
    (IVFIndex.fresh 1 1).search dsPair [0] 1 (1 / 5) 20 5 = some [] :=
  of_decide_eq_true (by with_unfolding_all rfl)

/-- C7 (code bug): with `k = 0` the heap capacity `k * refinery_factor` is
zero, so the very first candidate of a non-empty probed bucket falls into
the `else` branch and reads `top_candidates.top()` on an empty
`std::priority_queue` — undefined behaviour (modelled as `none`) — instead
of the empty result the spec requires.  The input is the index built over
`dsPair` (bucket `[0, 1]`), query `[1]`, `k = 0`. -/
theorem C7_k0_empty_heap_top :
    IVFIndex.build (IVFIndex.fresh 1 1) dsPair 0 =
      .ok (IVFIndex.mk 1 1 [1] [[0, 1]], 1) ∧
    (IVFIndex.mk 1 1 [1] [[0, 1]]).search dsPair [1] 0 (1 / 5) 20 5 = none :=
  of_decide_eq_true (by with_unfolding_all rfl)

theorem walAppendAll_eq (f : List Char) (recs : List (List Char × List Char)) :
    walAppendAll f recs =
      f ++ (recs.map (fun r => r.1 ++ '|' :: r.2 ++ ['\n'])).flatten := by
  induction recs generalizing f with
  | nil => simp [walAppendAll]
  | cons r rs ih =>
      show walAppendAll (walAppend f r.1 r.2) rs = _
      rw [ih]
      simp [walAppend, List.append_assoc]

theorem splitLinesGo_line (line : List Char) (h : '\n' ∉ line) :
    ∀ rest cur, splitLinesGo (line ++ '\n' :: rest) cur =
      (cur.reverse ++ line) :: splitLinesGo rest [] := by
  induction line with
  | nil => intro rest cur; simp [splitLinesGo]
  | cons c cs ih =>
      intro rest cur
      have hc : ¬ c = '\n' := fun hcc => h (hcc ▸ List.mem_cons_self c cs)
      have hstep : splitLinesGo ((c :: cs) ++ '\n' :: rest) cur =
          if c = '\n' then cur.reverse :: splitLinesGo (cs ++ '\n' :: rest) []
          else splitLinesGo (cs ++ '\n' :: rest) (c :: cur) := rfl
      rw [hstep, if_neg hc, ih (fun hm => h (List.mem_cons_of_mem c hm)) rest (c :: cur)]
      simp

theorem findBar_no_bar (l : List Char) (h : '|' ∉ l) : findBar l = none := by
  induction l with
  | nil => rfl
  | cons c cs ih =>
      have hc : ¬ c = '|' := fun hcc => h (hcc ▸ List.mem_cons_self c cs)
      rw [findBar, if_neg hc, ih (fun hm => h (List.mem_cons_of_mem c hm))]
      rfl

theorem findBar_split (op pay : List Char) (h : '|' ∉ op) :
    findBar (op ++ '|' :: pay) = some (op, pay) := by
  induction op with
  | nil => simp [findBar]
  | cons c cs ih =>
      have hc : ¬ c = '|' := fun hcc => h (hcc ▸ List.mem_cons_self c cs)
      show findBar (c :: (cs ++ '|' :: pay)) = _
      rw [findBar, if_neg hc, ih (fun hm => h (List.mem_cons_of_mem c hm))]
      rfl

theorem parseLine_none (l : List Char) (h : '|' ∉ l) : parseLine l = none := by
  cases l with
  | nil => rfl
  | cons c cs =>
      show findBar (c :: cs) = none
      exact findBar_no_bar (c :: cs) h

theorem walRecover_record (op pay rest : List Char) (hop : '|' ∉ op)
    (hop2 : '\n' ∉ op) (hpay : '\n' ∉ pay) :
    walRecover (op ++ '|' :: pay ++ '\n' :: rest) =
      (op, pay) :: walRecover rest := by
  have hline : '\n' ∉ op ++ '|' :: pay := by
    intro hm
    rcases List.mem_append.mp hm with hm | hm
    · exact hop2 hm
    · rcases List.mem_cons.mp hm with hm | hm
      · exact absurd hm.symm (by decide)
      · exact hpay hm
  unfold walRecover splitLines
  have harr : op ++ '|' :: pay ++ '\n' :: rest = (op ++ '|' :: pay) ++ '\n' :: rest := by
    simp
  rw [harr, splitLinesGo_line (op ++ '|' :: pay) hline rest []]
  rw [List.filterMap_cons]
  have hp : parseLine (List.reverse [] ++ (op ++ '|' :: pay)) = some (op, pay) := by
    have hne : ∃ c cs, ([] : List Char).reverse ++ (op ++ '|' :: pay) = c :: cs := by
      cases op with
      | nil => exact ⟨'|', pay, rfl⟩
      | cons c cs => exact ⟨c, cs ++ '|' :: pay, rfl⟩
    obtain ⟨c, cs, hcc⟩ := hne
    rw [hcc]
    show findBar (c :: cs) = some (op, pay)
    rw [← hcc]
    simpa using findBar_split op pay hop
  rw [hp]

/-- C8: appending records whose op and payload contain neither a bar nor a
newline and then recovering replays exactly those records in order; during
recovery, empty lines and lines without a bar are skipped and recovery
continues. -/
theorem C8_wal_roundtrip (recs : List (List Char × List Char))
    (hrecs : ∀ r ∈ recs, '|' ∉ r.1 ∧ '\n' ∉ r.1 ∧ '|' ∉ r.2 ∧ '\n' ∉ r.2) :
    walRecover (walAppendAll [] recs) = recs ∧
    (∀ junk rest, '|' ∉ junk → '\n' ∉ junk →
      walRecover (junk ++ '\n' :: rest) = walRecover rest) := by
  constructor
  · induction recs with
    | nil => rfl
    | cons r rs ih =>
        obtain ⟨h1, h2, h3, h4⟩ := hrecs r (List.mem_cons_self r rs)
        have hshape : walAppendAll [] (r :: rs) =
            r.1 ++ '|' :: r.2 ++ '\n' :: walAppendAll [] rs := by
          rw [walAppendAll_eq, walAppendAll_eq, List.map_cons, List.flatten_cons]
          simp [List.append_assoc]
        rw [hshape, walRecover_record r.1 r.2 _ h1 h2 h4,
          ih (fun s hs => hrecs s (List.mem_cons_of_mem r hs))]
  · intro junk rest hbar hnl
    unfold walRecover splitLines
    rw [splitLinesGo_line junk hnl rest []]
    rw [List.filterMap_cons]
    have : parseLine (List.reverse [] ++ junk) = none := by
      simpa using parseLine_none junk hbar
    rw [this]

/-- Witness for C8: one `ADD`-style record round-trips, and a junk line is
skipped. -/
theorem C8_wal_roundtrip_witness :
    (∀ r ∈ ([(['A', 'D', 'D'], ['x', '1'])] : List (List Char × List Char)),
      '|' ∉ r.1 ∧ '\n' ∉ r.1 ∧ '|' ∉ r.2 ∧ '\n' ∉ r.2) ∧
    (walRecover (walAppendAll [] [(['A', 'D', 'D'], ['x', '1'])]) =
      [(['A', 'D', 'D'], ['x', '1'])] ∧
    (∀ junk rest, '|' ∉ junk → '\n' ∉ junk →
      walRecover (junk ++ '\n' :: rest) = walRecover rest)) :=
  ⟨by decide, C8_wal_roundtrip [(['A', 'D', 'D'], ['x', '1'])] (by decide)⟩

theorem initCentroids_draws (ds : VectorDataset) (dim : ℕ) :
    ∀ (is : List ℕ) (cents : List ℚ) (pos pos' : ℕ),
      (initDraws ds.cnt is pos).1 = (initDraws ds.cnt is pos').1 →
      (initCentroids ds dim cents is pos).1 =
        (initCentroids ds dim cents is pos').1 := by
  intro is
  induction is with
  | nil => intro cents pos pos' _; rfl
  | cons i is ih =>
      intro cents pos pos' h
      have h' : (drawIdx ds.cnt pos).1 ::
            (initDraws ds.cnt is (drawIdx ds.cnt pos).2).1 =
          (drawIdx ds.cnt pos').1 ::
            (initDraws ds.cnt is (drawIdx ds.cnt pos').2).1 := h
      injection h' with hr hrs
      show (initCentroids ds dim
          (setCentroid cents dim i (ds.get_vector (drawIdx ds.cnt pos).1)) is
          (drawIdx ds.cnt pos).2).1 =
        (initCentroids ds dim
          (setCentroid cents dim i (ds.get_vector (drawIdx ds.cnt pos').1)) is
          (drawIdx ds.cnt pos').2).1
      rw [hr]
      exact ih _ _ _ hrs

/-- C9 (amended): training is a function of the dataset, the configuration
and the indices the shared engine samples during `init_centroids`: two
trainings whose engine states yield the same sampled index sequence produce
identical centroids.  Because the engine is a function-local `static`
seeded once per process, two consecutive trainings in one process continue
one stream and may sample different indices (see the counterexample). -/
theorem C9_det_given_draws (ds : VectorDataset) (k maxIter dim pos pos' : ℕ)
    (h : (initDraws ds.cnt (List.range k) pos).1 =
      (initDraws ds.cnt (List.range k) pos').1) :
    (KMeans.train ds k maxIter dim pos).map Prod.fst =
      (KMeans.train ds k maxIter dim pos').map Prod.fst := by
  unfold KMeans.train
  by_cases hk : ds.cnt < k
  · rw [if_pos hk, if_pos hk]
  · rw [if_neg hk, if_neg hk]
    rw [initCentroids_draws ds dim (List.range k)
      (List.replicate (k * dim) 0) pos pos' h]
    rfl

/-- Witness for C9's amended theorem: engine states 1 and 2 both sample
index 1 for `k = 1` over `dsPair` (raw outputs 2 and 3 both land in the
upper half of the 32-bit range). -/
theorem C9_det_given_draws_witness :
    (initDraws dsPair.cnt (List.range 1) 1).1 =
      (initDraws dsPair.cnt (List.range 1) 2).1 ∧
    (KMeans.train dsPair 1 5 1 1).map Prod.fst =
      (KMeans.train dsPair 1 5 1 2).map Prod.fst := by
  have h : (initDraws dsPair.cnt (List.range 1) 1).1 =
      (initDraws dsPair.cnt (List.range 1) 2).1 :=
    of_decide_eq_true (by with_unfolding_all rfl)
  exact ⟨h, C9_det_given_draws dsPair 1 5 1 1 2 h⟩

/-- C9 (counterexample): on `dsTriple` with `k = 2` in a fresh process, the
first training samples init indices `(1, 2)` and converges to centroids
`[5, 20]`; a second training run immediately after continues the static
engine's stream, samples `(2, 0)`, and converges to `[15, 0]` — a
different centroid set (not even a permutation of the first). -/
theorem C9_counterexample :
    KMeans.train dsTriple 2 5 1 0 = .ok ([5, 20], 2) ∧
    KMeans.train dsTriple 2 5 1 2 = .ok ([15, 0], 4) ∧
    ([5, 20] : List ℚ) ≠ [15, 0] ∧
    ¬ ([5, 20] : List ℚ).Perm [15, 0] :=
  of_decide_eq_true (by with_unfolding_all rfl)

end Vengine
